import Mathlib

/-
Verification of the quote-grounding and merge pipeline of the
contract-key-terms-extractor repository.

The development shallowly embeds the validation module (the
`validateExtraction` / `validateExtractions` / `generateValidationReport`
family together with its helpers `normalizeWhitespace`, `findOriginalSpan`
and `fuzzyFindQuote`) and the merge module (`mergeExtractions`,
`locateQuote`, `findPageNumber`).

JavaScript strings are modelled as lists of characters (`JStr`); all string
operations used by the source (`indexOf`, `substring`, `trim`,
`replace(/\s+/g, ...)`, slicing) are given as executable Lean functions on
such lists.  JavaScript `null` becomes `Option.none`; the floating-point
`confidence` field becomes an exact rational (the only arithmetic performed
on it is subtraction of 0.1 / 0.2 followed by `Math.max 0`, where rounding
cannot affect any ordering fact proved here).  `Array.prototype.sort` with
the comparator `(a, b) => b.quote.length - a.quote.length` is modelled by a
stable insertion sort, which is a faithful model because ECMAScript
specifies `sort` to be stable and the comparator only compares quote
lengths.
-/

namespace CKT

/-- JavaScript strings, modelled as lists of characters. -/
abbrev JStr := List Char

/-- The JavaScript whitespace class: the characters matched by `\s` in a
regular expression, which is also the set stripped by `String.prototype.trim`. -/
def isWS (c : Char) : Bool :=
  let n := c.toNat
  n == 0x9 || n == 0xA || n == 0xB || n == 0xC || n == 0xD || n == 0x20 ||
  n == 0xA0 || n == 0x1680 || (0x2000 ≤ n && n ≤ 0x200A) ||
  n == 0x2028 || n == 0x2029 || n == 0x202F || n == 0x205F || n == 0x3000 || n == 0xFEFF

/-- Model of `hay.indexOf(needle)`: index of the first occurrence of
`needle` in `hay`, `none` when JavaScript would return `-1`. -/
def firstOccur : JStr → JStr → Option Nat
  | [], needle => if needle.isPrefixOf [] then some 0 else none
  | c :: t, needle =>
    if needle.isPrefixOf (c :: t) then some 0
    else (firstOccur t needle).map (· + 1)

/-- Model of `hay.indexOf(needle, from)`: first occurrence of `needle` in
`hay` at a position `≥ min from hay.length`. -/
def indexOfFrom (hay needle : JStr) (start : Nat) : Option Nat :=
  (firstOccur (hay.drop start) needle).map (· + min start hay.length)

/-- Model of `s.substring(a, b)` for numeric arguments: both endpoints are
clamped to `[0, s.length]` and swapped when out of order. -/
def jsSubstring (s : JStr) (a b : Nat) : JStr :=
  let a' := min a s.length
  let b' := min b s.length
  (s.take (max a' b')).drop (min a' b')

/-- Model of `text.replace(/\s+/g, ' ')`: every maximal run of whitespace
characters collapses to a single space. -/
def collapseWS : JStr → JStr
  | [] => []
  | [c] => if isWS c then [' '] else [c]
  | c :: d :: rest =>
    if isWS c then
      if isWS d then collapseWS (d :: rest) else ' ' :: collapseWS (d :: rest)
    else c :: collapseWS (d :: rest)

/-- Model of `text.replace(/\n/g, ' ')`. -/
def replaceNL (l : JStr) : JStr := l.map (fun c => if c = '\n' then ' ' else c)

/-- The leading-whitespace removal half of `String.prototype.trim`. -/
def trimLeft (l : JStr) : JStr := l.dropWhile isWS

/-- The trailing-whitespace removal half of `String.prototype.trim`. -/
def trimRight : JStr → JStr
  | [] => []
  | c :: rest =>
    match trimRight rest with
    | [] => if isWS c then [] else [c]
    | d :: r => c :: d :: r

/-- Model of `s.trim()`. -/
def trimJS (l : JStr) : JStr := trimRight (trimLeft l)

/-- `normalizeWhitespace` from the validation module:
`text.replace(/\s+/g, ' ').replace(/\n/g, ' ').trim()`. -/
def normalizeWhitespace (l : JStr) : JStr := trimJS (replaceNL (collapseWS l))

/-- The `status` field of the validation-module `Extraction` schema:
`"found" | "not_found" | "inferred"`. -/
inductive VStatus where
  | found
  | not_found
  | inferred
  deriving DecidableEq, Repr

/-- The validation-module `Extraction` record.  `end` is a Lean keyword, so
the field is written `«end»`. -/
structure Extraction where
  field : String
  status : VStatus
  quote : JStr
  reasoning : String
  page : Option Nat
  start : Option Nat
  «end» : Option Nat
  confidence : ℚ
  deriving DecidableEq, Repr

/-- The default `reasoning` installed by `validateExtraction` when a quote is
demoted and the claim supplied no reasoning. -/
def defaultReasoning : String := "Quote could not be verified in the source document"

/-- The `{text, start, end}` records returned by `findOriginalSpan` and
`fuzzyFindQuote`. -/
structure SpanResult where
  text : JStr
  start : Nat
  «end» : Nat
  deriving DecidableEq, Repr

/-- Index of the `n`-th (0-based) non-whitespace character of a string:
the scan performed by the loop inside `findOriginalSpan`
(`if (fullText[i].trim() !== '') { if (charCount === normalizedIndex) ... }`). -/
def nthNonWS : JStr → Nat → Option Nat
  | [], _ => none
  | c :: rest, n =>
    if isWS c then (nthNonWS rest n).map (· + 1)
    else if n = 0 then some 0 else (nthNonWS rest (n - 1)).map (· + 1)

/-- `findOriginalSpan` from the validation module: map a normalized match
position back to the original text by counting non-whitespace characters,
then guess the end offset as `start + 2 * approximateLength` capped at the
text length. -/
def findOriginalSpan (fullText : JStr) (normalizedIndex approximateLength : Nat) :
    Option SpanResult :=
  match nthNonWS fullText normalizedIndex with
  | none => none
  | some originalStart =>
    let originalEnd := min (originalStart + approximateLength * 2) fullText.length
    some ⟨jsSubstring fullText originalStart originalEnd, originalStart, originalEnd⟩

/-- `fuzzyFindQuote` from the validation module: anchor on a prefix and a
suffix of length `min(50, floor(0.3 * quote.length))` (`floor (len * 0.3)`
equals `3 * len / 10` in exact arithmetic for every `len < 200` reachable
here) and take the span between their occurrences. -/
def fuzzyFindQuote (quote fullText : JStr) : Option SpanResult :=
  let minLength := min 50 (3 * quote.length / 10)
  if quote.length < minLength * 2 then none
  else
    let quoteStart := quote.take minLength
    let quoteEnd := quote.drop (quote.length - minLength)
    match firstOccur fullText quoteStart with
    | none => none
    | some startIndex =>
      let searchEnd := min (startIndex + quote.length * 2) fullText.length
      match indexOfFrom fullText quoteEnd (startIndex + minLength) with
      | none => none
      | some endIndex =>
        if endIndex > searchEnd then none
        else
          let actualEnd := endIndex + minLength
          some ⟨jsSubstring fullText startIndex actualEnd, startIndex, actualEnd⟩

/-- The tail of `validateExtraction` reached when both the exact and the
normalized tier have failed: the fuzzy-match attempt (only for quotes
shorter than 200 characters) followed by the final demotion to
`not_found`. -/
def validateTail (extraction : Extraction) (fullText : JStr) : Extraction :=
  match (if extraction.quote.length < 200 then fuzzyFindQuote extraction.quote fullText else none) with
  | some fz =>
    { extraction with
        quote := fz.text, start := some fz.start, «end» := some fz.«end»,
        confidence := max 0 (extraction.confidence - 1/5) }
  | none =>
    { extraction with
        status := VStatus.not_found, quote := [],
        reasoning := if extraction.reasoning = "" then defaultReasoning else extraction.reasoning,
        start := none, «end» := none, confidence := 0 }

/-- `validateExtraction` from the validation module (the copy embedded in
`src/app/lib/chunk.ts`, identical to the standalone validation file):
pass through `not_found` / empty / whitespace-only quotes, then try the
exact, normalized and fuzzy tiers in order, demoting to `not_found` when
all fail.  In the exact tier, claimed offsets are kept when non-null
(`start: extraction.start ?? exactIndex`). -/
def validateExtraction (extraction : Extraction) (fullText : JStr) : Extraction :=
  if extraction.status = VStatus.not_found ∨ extraction.quote = [] ∨ trimJS extraction.quote = [] then
    extraction
  else
    match firstOccur fullText extraction.quote with
    | some exactIndex =>
      { extraction with
          start := some (extraction.start.getD exactIndex),
          «end» := some (extraction.«end».getD (exactIndex + extraction.quote.length)) }
    | none =>
      match firstOccur (normalizeWhitespace fullText) (normalizeWhitespace extraction.quote) with
      | some normalizedIndex =>
        match findOriginalSpan fullText normalizedIndex extraction.quote.length with
        | some sp =>
          { extraction with
              quote := sp.text, start := some sp.start, «end» := some sp.«end»,
              confidence := max 0 (extraction.confidence - 1/10) }
        | none => validateTail extraction fullText
      | none => validateTail extraction fullText

/-- `validateExtractions`: validate every extraction of a result set. -/
def validateExtractions (extractions : List Extraction) (fullText : JStr) : List Extraction :=
  extractions.map (fun extraction => validateExtraction extraction fullText)

/-- The record returned by `generateValidationReport`. -/
structure ValidationReport where
  totalExtractions : Nat
  validCount : Nat
  invalidCount : Nat
  invalidFields : List String
  deriving DecidableEq, Repr

/-- The index-parallel loop of `generateValidationReport`: walk the original
and validated lists together, counting the entries whose status moved from
`found` to `not_found` and collecting their original field names in index
order. -/
def reportAux : List Extraction → List Extraction → Nat × List String
  | o :: os, v :: vs =>
    let rest := reportAux os vs
    if o.status = VStatus.found ∧ v.status = VStatus.not_found then
      (rest.1 + 1, o.field :: rest.2)
    else rest
  | _, _ => (0, [])

/-- `generateValidationReport` from the validation module (for equal-length
input lists, which is how the source always calls it). -/
def generateValidationReport (originalExtractions validatedExtractions : List Extraction) :
    ValidationReport :=
  let acc := reportAux originalExtractions validatedExtractions
  { totalExtractions := originalExtractions.length
    validCount := originalExtractions.length - acc.1
    invalidCount := acc.1
    invalidFields := acc.2 }

/-- The `status` field of the merge-module `Extraction` schema
(`"found" | "not_found"`). -/
inductive MStatus where
  | found
  | not_found
  deriving DecidableEq, Repr

/-- The merge-module `Extraction` record (the schema variant used by
`src/app/lib/merge.ts`, which has no `reasoning` field). -/
structure MExtraction where
  field : String
  status : MStatus
  quote : JStr
  page : Option Nat
  start : Option Nat
  «end» : Option Nat
  confidence : ℚ
  deriving DecidableEq, Repr

/-- The scanning loop of `findPageNumber`: walk consecutive pairs of page
boundary offsets, returning the 1-based page index of the first half-open
bracket `[pages[i], pages[i+1])` containing the offset. -/
def findPageAux (offset : Nat) : Nat → List Nat → Option Nat
  | _, [] => none
  | _, [_] => none
  | i, a :: b :: rest =>
    if a ≤ offset ∧ offset < b then some (i + 1)
    else findPageAux offset (i + 1) (b :: rest)

/-- `findPageNumber` from `src/app/lib/merge.ts`: the bracket scan, with
`Math.max(1, pages.length - 1)` (the last page, at least 1) as the default
when no bracket contains the offset. -/
def findPageNumber (offset : Nat) (pages : List Nat) : Nat :=
  (findPageAux offset 0 pages).getD (max 1 (pages.length - 1))

/-- The record returned by `locateQuote` on success. -/
structure Located where
  exactQuote : JStr
  page : Nat
  start : Nat
  «end» : Nat
  deriving DecidableEq, Repr

/-- `locateQuote` from `src/app/lib/merge.ts`: exact substring match only
(the fuzzy fallback is disabled in the source); on success the span is the
first occurrence and the page comes from `findPageNumber`. -/
def locateQuote (quote fullText : JStr) (pages : List Nat) : Option Located :=
  match firstOccur fullText quote with
  | some start => some ⟨quote, findPageNumber start pages, start, start + quote.length⟩
  | none => none

/-- One step of the stable insertion sort modelling
`candidates.sort((a, b) => b.quote.length - a.quote.length)`: insert before
the first element whose quote is no longer, so that equal lengths keep
their original order (ECMAScript `sort` is stable). -/
def insertByLenDesc (x : MExtraction) : List MExtraction → List MExtraction
  | [] => [x]
  | y :: ys =>
    if y.quote.length ≤ x.quote.length then x :: y :: ys
    else y :: insertByLenDesc x ys

/-- Stable sort by quote length, longest first. -/
def sortByLenDesc : List MExtraction → List MExtraction
  | [] => []
  | x :: xs => insertByLenDesc x (sortByLenDesc xs)

/-- The per-field candidate filter of `mergeExtractions`:
`candidates.filter(c => c.status === "found" && c.quote.trim().length > 0)`
applied to the group of claims carrying the field name. -/
def foundCandidatesFor (claims : List MExtraction) (f : String) : List MExtraction :=
  (claims.filter (fun c => decide (c.field = f))).filter
    (fun c => decide (c.status = MStatus.found ∧ 0 < (trimJS c.quote).length))

/-- The `not_found` record that `mergeExtractions` emits for a field with no
surviving candidate or with a quote that fails exact grounding. -/
def mergeNotFound (f : String) : MExtraction :=
  { field := f, status := MStatus.not_found, quote := [],
    page := none, start := none, «end» := none, confidence := 0 }

/-- The body of the per-field loop of `mergeExtractions`: filter and sort
the candidates, take the longest, ground it through `locateQuote`, and
demote to `not_found` when either no candidate survives or exact grounding
fails. -/
def mergeField (claims : List MExtraction) (f : String) (fullText : JStr) (pages : List Nat) :
    MExtraction :=
  match sortByLenDesc (foundCandidatesFor claims f) with
  | [] => mergeNotFound f
  | best :: _ =>
    match locateQuote best.quote fullText pages with
    | none => mergeNotFound f
    | some located =>
      { field := f, status := MStatus.found, quote := located.exactQuote,
        page := some located.page, start := some located.start,
        «end» := some located.«end», confidence := best.confidence }

/-- First-appearance deduplication of field names: the iteration order of
the JavaScript `Map` keys built by the grouping loop of
`mergeExtractions`. -/
def dedupFirst (l : List String) : List String :=
  l.foldl (fun acc f => if f ∈ acc then acc else acc ++ [f]) []

/-- `mergeExtractions` from `src/app/lib/merge.ts`: group all per-chunk
claims by field name (in first-appearance order) and emit one merged record
per field. -/
def mergeExtractions (allExtractions : List (List MExtraction)) (fullText : JStr)
    (pages : List Nat) : List MExtraction :=
  let claims := allExtractions.flatten
  let allFields := dedupFirst (claims.map (fun c => c.field))
  allFields.map (fun f => mergeField claims f fullText pages)

/-! ### Helper lemmas about the string model -/

lemma firstOccur_prefix_bound :
    ∀ (hay needle : JStr) (i : Nat), firstOccur hay needle = some i →
      needle.isPrefixOf (hay.drop i) = true ∧ i + needle.length ≤ hay.length := by
  intro hay
  induction hay with
  | nil =>
    intro needle i h
    simp only [firstOccur] at h
    split at h
    · rename_i hp
      cases h
      have hnil : needle = [] := List.prefix_nil.mp (List.isPrefixOf_iff_prefix.mp hp)
      subst hnil
      exact ⟨rfl, by simp⟩
    · cases h
  | cons c t ih =>
    intro needle i h
    simp only [firstOccur] at h
    split at h
    · rename_i hp
      cases h
      refine ⟨by simpa using hp, ?_⟩
      have := (List.isPrefixOf_iff_prefix.mp hp).length_le
      simpa using this
    · rename_i hp
      obtain ⟨j, hj, hji⟩ := Option.map_eq_some'.mp h
      subst hji
      obtain ⟨h1, h2⟩ := ih needle j hj
      constructor
      · simpa using h1
      · simp only [List.length_cons]
        omega

lemma jsSubstring_firstOccur (hay needle : JStr) (i : Nat)
    (h : firstOccur hay needle = some i) :
    jsSubstring hay i (i + needle.length) = needle := by
  obtain ⟨hp, hb⟩ := firstOccur_prefix_bound hay needle i h
  have hpre : needle <+: hay.drop i := List.isPrefixOf_iff_prefix.mp hp
  have hi : i ≤ hay.length := le_trans (Nat.le_add_right _ _) hb
  simp only [jsSubstring, Nat.min_eq_left hi, Nat.min_eq_left hb,
    Nat.max_eq_right (Nat.le_add_right i needle.length),
    Nat.min_eq_left (Nat.le_add_right i needle.length)]
  rw [List.drop_take, Nat.add_sub_cancel_left]
  exact (List.prefix_iff_eq_take.mp hpre).symm

/-! ### Branch analysis of `validateExtraction` -/

lemma validateTail_branches (e : Extraction) (t : JStr) :
    (∃ fz, fuzzyFindQuote e.quote t = some fz ∧
        validateTail e t =
          { e with quote := fz.text, start := some fz.start, «end» := some fz.«end»,
                   confidence := max 0 (e.confidence - 1/5) })
    ∨ validateTail e t =
        { e with status := VStatus.not_found, quote := [],
                 reasoning := if e.reasoning = "" then defaultReasoning else e.reasoning,
                 start := none, «end» := none, confidence := 0 } := by
  unfold validateTail
  split
  · rename_i fz hfz
    left
    refine ⟨fz, ?_, rfl⟩
    split at hfz
    · exact hfz
    · cases hfz
  · right; rfl

lemma validateExtraction_branches (e : Extraction) (t : JStr) :
    (validateExtraction e t = e ∧
        (e.status = VStatus.not_found ∨ e.quote = [] ∨ trimJS e.quote = []))
    ∨ (∃ i, firstOccur t e.quote = some i ∧
        validateExtraction e t =
          { e with start := some (e.start.getD i),
                   «end» := some (e.«end».getD (i + e.quote.length)) })
    ∨ (∃ ni sp, findOriginalSpan t ni e.quote.length = some sp ∧
        validateExtraction e t =
          { e with quote := sp.text, start := some sp.start, «end» := some sp.«end»,
                   confidence := max 0 (e.confidence - 1/10) })
    ∨ (∃ fz, fuzzyFindQuote e.quote t = some fz ∧
        validateExtraction e t =
          { e with quote := fz.text, start := some fz.start, «end» := some fz.«end»,
                   confidence := max 0 (e.confidence - 1/5) })
    ∨ (validateExtraction e t =
        { e with status := VStatus.not_found, quote := [],
                 reasoning := if e.reasoning = "" then defaultReasoning else e.reasoning,
                 start := none, «end» := none, confidence := 0 }) := by
  unfold validateExtraction
  split
  · exact Or.inl ⟨rfl, by assumption⟩
  · split
    · rename_i i hi
      exact Or.inr (Or.inl ⟨i, hi, rfl⟩)
    · split
      · rename_i ni hni
        split
        · rename_i sp hsp
          exact Or.inr (Or.inr (Or.inl ⟨ni, sp, hsp, rfl⟩))
        · rcases validateTail_branches e t with ⟨fz, hfz, hv⟩ | hv
          · exact Or.inr (Or.inr (Or.inr (Or.inl ⟨fz, hfz, hv⟩)))
          · exact Or.inr (Or.inr (Or.inr (Or.inr hv)))
      · rcases validateTail_branches e t with ⟨fz, hfz, hv⟩ | hv
        · exact Or.inr (Or.inr (Or.inr (Or.inl ⟨fz, hfz, hv⟩)))
        · exact Or.inr (Or.inr (Or.inr (Or.inr hv)))

/-- No branch of `validateExtraction` touches the `field` or `page` slot of
the record: both are passed through unchanged. -/
lemma validateExtraction_frame (e : Extraction) (t : JStr) :
    (validateExtraction e t).field = e.field ∧ (validateExtraction e t).page = e.page := by
  rcases validateExtraction_branches e t with ⟨h, _⟩ | ⟨i, _, h⟩ | ⟨ni, sp, _, h⟩ | ⟨fz, _, h⟩ | h <;>
    rw [h] <;> exact ⟨rfl, rfl⟩

/-! ### Helper lemmas about the merge module -/

/-- Sortedness by quote length, longest first. -/
def LenSorted (l : List MExtraction) : Prop :=
  List.Pairwise (fun a b => b.quote.length ≤ a.quote.length) l

lemma insertByLenDesc_perm (x : MExtraction) (l : List MExtraction) :
    (insertByLenDesc x l).Perm (x :: l) := by
  induction l with
  | nil => exact List.Perm.refl _
  | cons y ys ih =>
    unfold insertByLenDesc
    split
    · exact List.Perm.refl _
    · exact (ih.cons y).trans (List.Perm.swap x y ys)

lemma sortByLenDesc_perm (l : List MExtraction) : (sortByLenDesc l).Perm l := by
  induction l with
  | nil => exact List.Perm.refl _
  | cons x xs ih =>
    exact (insertByLenDesc_perm x (sortByLenDesc xs)).trans (ih.cons x)

lemma insertByLenDesc_sorted (x : MExtraction) (l : List MExtraction) (h : LenSorted l) :
    LenSorted (insertByLenDesc x l) := by
  induction l with
  | nil => simp [insertByLenDesc, LenSorted]
  | cons y ys ih =>
    obtain ⟨hy, hys⟩ := List.pairwise_cons.mp h
    unfold insertByLenDesc
    split
    · rename_i hle
      refine List.pairwise_cons.mpr ⟨?_, h⟩
      intro z hz
      rcases List.mem_cons.mp hz with rfl | hz'
      · exact hle
      · exact le_trans (hy z hz') hle
    · rename_i hgt
      refine List.pairwise_cons.mpr ⟨?_, ih hys⟩
      intro z hz
      have hz2 : z ∈ x :: ys := (insertByLenDesc_perm x ys).subset hz
      rcases List.mem_cons.mp hz2 with rfl | hz'
      · exact le_of_lt (Nat.lt_of_not_le hgt)
      · exact hy z hz'

lemma sortByLenDesc_sorted (l : List MExtraction) : LenSorted (sortByLenDesc l) := by
  induction l with
  | nil => simp [sortByLenDesc, LenSorted]
  | cons x xs ih => exact insertByLenDesc_sorted x (sortByLenDesc xs) ih

/-- The head of the descending sort is a member attaining the maximal quote
length. -/
lemma sortByLenDesc_head_max (l : List MExtraction) (best : MExtraction)
    (h : (sortByLenDesc l).head? = some best) :
    best ∈ l ∧ ∀ c ∈ l, c.quote.length ≤ best.quote.length := by
  cases hsort : sortByLenDesc l with
  | nil => rw [hsort] at h; cases h
  | cons x tl =>
    rw [hsort] at h
    cases h
    have hperm := sortByLenDesc_perm l
    rw [hsort] at hperm
    have hsorted := sortByLenDesc_sorted l
    rw [hsort] at hsorted
    refine ⟨hperm.subset (List.mem_cons_self _ _), ?_⟩
    intro c hc
    have hc' : c ∈ best :: tl := hperm.symm.subset hc
    rcases List.mem_cons.mp hc' with rfl | hc''
    · exact le_refl _
    · exact (List.pairwise_cons.mp hsorted).1 c hc''

/-- When exactly one element attains the maximal quote length, it is the
head of the descending sort regardless of the input order. -/
lemma sortByLenDesc_head_unique (l : List MExtraction) (b : MExtraction) (hb : b ∈ l)
    (hu : ∀ c ∈ l, c ≠ b → c.quote.length < b.quote.length) :
    (sortByLenDesc l).head? = some b := by
  cases hsort : sortByLenDesc l with
  | nil =>
    have hperm := sortByLenDesc_perm l
    rw [hsort] at hperm
    rw [hperm.symm.eq_nil] at hb
    cases hb
  | cons x tl =>
    obtain ⟨hxmem, hxmax⟩ := sortByLenDesc_head_max l x (by rw [hsort]; rfl)
    by_cases hxb : x = b
    · subst hxb; rfl
    · exact absurd (hxmax b hb) (Nat.not_le.mpr (hu x hxmem hxb))

lemma mem_foundCandidatesFor (claims : List MExtraction) (f : String) (c : MExtraction)
    (h : c ∈ foundCandidatesFor claims f) :
    c ∈ claims ∧ c.field = f ∧ c.status = MStatus.found ∧ 0 < (trimJS c.quote).length := by
  unfold foundCandidatesFor at h
  have h1 := List.mem_filter.mp h
  have h2 := List.mem_filter.mp h1.1
  have h3 := of_decide_eq_true h1.2
  exact ⟨h2.1, of_decide_eq_true h2.2, h3.1, h3.2⟩

lemma mergeField_empty (claims : List MExtraction) (f : String) (t : JStr) (ps : List Nat)
    (h : foundCandidatesFor claims f = []) :
    mergeField claims f t ps = mergeNotFound f := by
  unfold mergeField
  rw [h]
  rfl

lemma mergeField_of_head (claims : List MExtraction) (f : String) (t : JStr) (ps : List Nat)
    (best : MExtraction)
    (h : (sortByLenDesc (foundCandidatesFor claims f)).head? = some best) :
    mergeField claims f t ps =
      match locateQuote best.quote t ps with
      | none => mergeNotFound f
      | some located =>
        { field := f, status := MStatus.found, quote := located.exactQuote,
          page := some located.page, start := some located.start,
          «end» := some located.«end», confidence := best.confidence } := by
  unfold mergeField
  cases hsort : sortByLenDesc (foundCandidatesFor claims f) with
  | nil => rw [hsort] at h; cases h
  | cons x tl =>
    rw [hsort] at h
    cases h
    rfl

lemma locateQuote_spec (q t : JStr) (ps : List Nat) (loc : Located)
    (h : locateQuote q t ps = some loc) :
    firstOccur t q = some loc.start ∧ loc.exactQuote = q ∧
      loc.«end» = loc.start + q.length ∧ loc.page = findPageNumber loc.start ps := by
  unfold locateQuote at h
  split at h
  · rename_i s hs
    cases h
    exact ⟨hs, rfl, rfl, rfl⟩
  · cases h

/-! ### The `findPageNumber` bracket scan -/

lemma findPageAux_some_of_bracket :
    ∀ (pages : List Nat) (i k off a b : Nat) (r : List Nat),
      List.Sorted (· ≤ ·) pages → pages.drop i = a :: b :: r → a ≤ off → off < b →
      findPageAux off k pages = some (k + i + 1) := by
  intro pages
  induction pages with
  | nil =>
    intro i k off a b r _ hd _ _
    simp at hd
  | cons x rest ih =>
    intro i k off a b r hs hd ha hb
    cases i with
    | zero =>
      simp only [List.drop_zero] at hd
      injection hd with h1 h2
      subst h1
      subst h2
      unfold findPageAux
      simp [ha, hb]
    | succ j =>
      simp only [List.drop_succ_cons] at hd
      cases rest with
      | nil => simp at hd
      | cons y rest' =>
        have hsy : List.Sorted (· ≤ ·) (y :: rest') := hs.of_cons
        have hamem : a ∈ y :: rest' := by
          apply List.mem_of_mem_drop (n := j)
          rw [hd]
          exact List.mem_cons_self _ _
        have hya : y ≤ a := by
          rcases List.mem_cons.mp hamem with rfl | hmem
          · exact le_refl _
          · exact (List.sorted_cons.mp hsy).1 a hmem
        have hnc : ¬ (x ≤ off ∧ off < y) := by
          rintro ⟨-, hlt⟩
          exact absurd (lt_of_le_of_lt (le_trans hya ha) hlt) (lt_irrefl _)
        unfold findPageAux
        simp only [hnc, if_false]
        rw [ih j (k + 1) off a b r hsy hd ha hb]
        congr 1
        omega

lemma findPageAux_none :
    ∀ (pages : List Nat) (k off : Nat),
      (∀ i a b r, pages.drop i = a :: b :: r → ¬(a ≤ off ∧ off < b)) →
      findPageAux off k pages = none := by
  intro pages
  induction pages with
  | nil => intro k off _; rfl
  | cons x rest ih =>
    intro k off h
    cases rest with
    | nil => rfl
    | cons y rest' =>
      have h0 := h 0 x y rest' (by simp)
      unfold findPageAux
      simp only [h0, if_false]
      refine ih (k + 1) off ?_
      intro i a b r hd
      exact h (i + 1) a b r (by simpa using hd)

/-- Under the documented monotonicity invariant on page offsets, the scan of
`findPageNumber` returns `i + 1` exactly when `pages[i] ≤ offset < pages[i+1]`. -/
lemma findPageNumber_bracket (pages : List Nat) (off i a b : Nat) (r : List Nat)
    (hs : List.Sorted (· ≤ ·) pages) (hd : pages.drop i = a :: b :: r)
    (ha : a ≤ off) (hb : off < b) :
    findPageNumber off pages = i + 1 := by
  unfold findPageNumber
  rw [findPageAux_some_of_bracket pages i 0 off a b r hs hd ha hb]
  simp

/-- When no bracket contains the offset, `findPageNumber` falls back to
`Math.max(1, pages.length - 1)`, the last page. -/
lemma findPageNumber_default (pages : List Nat) (off : Nat)
    (h : ∀ i a b r, pages.drop i = a :: b :: r → ¬(a ≤ off ∧ off < b)) :
    findPageNumber off pages = max 1 (pages.length - 1) := by
  unfold findPageNumber
  rw [findPageAux_none pages 0 off h]
  rfl

/-! ### Normal forms of `normalizeWhitespace` -/

/-- Every whitespace character of the list is a plain space. -/
def allSpaceWS (l : JStr) : Prop := ∀ c ∈ l, isWS c = true → c = ' '

/-- No two adjacent characters are both whitespace. -/
def noAdjWS : JStr → Prop
  | c :: d :: rest => ¬(isWS c = true ∧ isWS d = true) ∧ noAdjWS (d :: rest)
  | _ => True

/-- The first character, when present, is not whitespace. -/
def headNWS : JStr → Prop
  | [] => True
  | c :: _ => isWS c = false

/-- The last character, when present, is not whitespace. -/
def lastNWS : JStr → Prop
  | [] => True
  | [c] => isWS c = false
  | _ :: d :: rest => lastNWS (d :: rest)

lemma noAdjWS_tail {c : Char} {l : JStr} (h : noAdjWS (c :: l)) : noAdjWS l := by
  cases l with
  | nil => trivial
  | cons d rest => exact h.2

lemma noAdjWS_cons_left {c : Char} {l : JStr} (hc : isWS c = false) (hl : noAdjWS l) :
    noAdjWS (c :: l) := by
  cases l with
  | nil => trivial
  | cons d rest => exact ⟨fun h => by rw [hc] at h; exact Bool.false_ne_true h.1, hl⟩

lemma collapseWS_allSpace : ∀ l : JStr, allSpaceWS (collapseWS l)
  | [] => by intro c hc; cases hc
  | [c] => by
    intro x hx hws
    by_cases h : isWS c = true <;> simp [collapseWS, h] at hx <;> subst hx
    · rfl
    · exact absurd hws h
  | c :: d :: rest => by
    have ih := collapseWS_allSpace (d :: rest)
    intro x hx hws
    by_cases hc : isWS c = true
    · by_cases hd : isWS d = true
      · rw [show collapseWS (c :: d :: rest) = collapseWS (d :: rest) by
          simp [collapseWS, hc, hd]] at hx
        exact ih x hx hws
      · rw [show collapseWS (c :: d :: rest) = ' ' :: collapseWS (d :: rest) by
          simp [collapseWS, hc, hd]] at hx
        rcases List.mem_cons.mp hx with rfl | hx'
        · rfl
        · exact ih x hx' hws
    · rw [show collapseWS (c :: d :: rest) = c :: collapseWS (d :: rest) by
        simp [collapseWS, hc]] at hx
      rcases List.mem_cons.mp hx with rfl | hx'
      · rw [hws] at hc; cases hc rfl
      · exact ih x hx' hws

lemma collapseWS_head_nws {d : Char} (rest : JStr) (h : isWS d = false) :
    ∃ tl, collapseWS (d :: rest) = d :: tl := by
  cases rest with
  | nil => exact ⟨[], by simp [collapseWS, h]⟩
  | cons e rest' => exact ⟨collapseWS (e :: rest'), by simp [collapseWS, h]⟩

lemma collapseWS_noAdj : ∀ l : JStr, noAdjWS (collapseWS l)
  | [] => by trivial
  | [c] => by
    by_cases h : isWS c = true <;> simp [collapseWS, h] <;> trivial
  | c :: d :: rest => by
    have ih := collapseWS_noAdj (d :: rest)
    by_cases hc : isWS c = true
    · by_cases hd : isWS d = true
      · rw [show collapseWS (c :: d :: rest) = collapseWS (d :: rest) by
          simp [collapseWS, hc, hd]]
        exact ih
      · rw [show collapseWS (c :: d :: rest) = ' ' :: collapseWS (d :: rest) by
          simp [collapseWS, hc, hd]]
        obtain ⟨tl, htl⟩ := collapseWS_head_nws rest (by simpa using hd)
        rw [htl]
        rw [htl] at ih
        exact ⟨fun h => hd h.2, ih⟩
    · rw [show collapseWS (c :: d :: rest) = c :: collapseWS (d :: rest) by
        simp [collapseWS, hc]]
      exact noAdjWS_cons_left (by simpa using hc) ih

lemma collapseWS_id : ∀ l : JStr, allSpaceWS l → noAdjWS l → collapseWS l = l
  | [], _, _ => rfl
  | [c], h1, _ => by
    by_cases h : isWS c = true
    · simp [collapseWS, h, h1 c (List.mem_singleton_self c) h]
    · simp [collapseWS, h]
  | c :: d :: rest, h1, h2 => by
    have ih := collapseWS_id (d :: rest)
      (fun x hx hws => h1 x (List.mem_cons_of_mem c hx) hws) h2.2
    by_cases hc : isWS c = true
    · have hd : isWS d = false := by
        by_contra hdd
        exact h2.1 ⟨hc, by simpa using hdd⟩
      have hcsp : c = ' ' := h1 c (List.mem_cons_self _ _) hc
      rw [show collapseWS (c :: d :: rest) = ' ' :: collapseWS (d :: rest) by
        simp [collapseWS, hc, hd]]
      rw [ih, hcsp]
    · rw [show collapseWS (c :: d :: rest) = c :: collapseWS (d :: rest) by
        simp [collapseWS, hc]]
      rw [ih]

lemma replaceNL_id (l : JStr) (h : allSpaceWS l) : replaceNL l = l := by
  induction l with
  | nil => rfl
  | cons c rest ih =>
    have hc : ¬ c = '\n' := by
      intro hcn
      subst hcn
      have := h '\n' (List.mem_cons_self _ _) (by decide)
      cases this
    simp only [replaceNL, List.map_cons, if_neg hc]
    have := ih (fun x hx hws => h x (List.mem_cons_of_mem c hx) hws)
    simp only [replaceNL] at this
    rw [this]

lemma trimLeft_headNWS (l : JStr) : headNWS (trimLeft l) := by
  induction l with
  | nil => trivial
  | cons c rest ih =>
    by_cases h : isWS c = true
    · simpa [trimLeft, List.dropWhile_cons, h] using ih
    · have hc : isWS c = false := by simpa using h
      simp [trimLeft, List.dropWhile_cons, hc]
      exact hc

lemma trimLeft_allSpace (l : JStr) (h : allSpaceWS l) : allSpaceWS (trimLeft l) :=
  fun c hc hws => h c ((List.dropWhile_sublist isWS).subset hc) hws

lemma trimLeft_noAdj (l : JStr) (h : noAdjWS l) : noAdjWS (trimLeft l) := by
  induction l with
  | nil => trivial
  | cons c rest ih =>
    by_cases hc : isWS c = true
    · simpa [trimLeft, List.dropWhile_cons, hc] using ih (noAdjWS_tail h)
    · simpa [trimLeft, List.dropWhile_cons, hc] using h

lemma trimLeft_id (l : JStr) (h : headNWS l) : trimLeft l = l := by
  cases l with
  | nil => rfl
  | cons c rest =>
    have hc : isWS c = false := h
    simp [trimLeft, List.dropWhile_cons, hc]

lemma trimRight_shape (c : Char) (rest : JStr) :
    trimRight (c :: rest) = [] ∨ ∃ r, trimRight (c :: rest) = c :: r := by
  unfold trimRight
  cases htr : trimRight rest with
  | nil =>
    by_cases h : isWS c = true
    · left; simp [h]
    · right; exact ⟨[], by simp [h]⟩
  | cons d r => right; exact ⟨d :: r, rfl⟩

lemma trimRight_head_eq {l : JStr} {d : Char} {r : JStr} (h : trimRight l = d :: r) :
    ∃ l0, l = d :: l0 := by
  cases l with
  | nil => cases h
  | cons c rest =>
    rcases trimRight_shape c rest with hsh | ⟨r', hsh⟩
    · rw [hsh] at h; cases h
    · rw [hsh] at h
      injection h with h1 _
      exact ⟨rest, by rw [h1]⟩

lemma trimRight_allSpace (l : JStr) (h : allSpaceWS l) : allSpaceWS (trimRight l) := by
  induction l with
  | nil => intro c hc; cases hc
  | cons c rest ih =>
    have ihr := ih (fun x hx hws => h x (List.mem_cons_of_mem c hx) hws)
    intro x hx hws
    unfold trimRight at hx
    cases htr : trimRight rest with
    | nil =>
      rw [htr] at hx
      by_cases hc : isWS c = true <;> simp [hc] at hx
      subst hx
      exact h x (List.mem_cons_self _ _) hws
    | cons d r =>
      rw [htr] at hx
      rcases List.mem_cons.mp hx with rfl | hx'
      · exact h x (List.mem_cons_self _ _) hws
      · exact ihr x (htr ▸ hx') hws

lemma trimRight_noAdj (l : JStr) (h : noAdjWS l) : noAdjWS (trimRight l) := by
  induction l with
  | nil => trivial
  | cons c rest ih =>
    have ihr := ih (noAdjWS_tail h)
    unfold trimRight
    cases htr : trimRight rest with
    | nil =>
      by_cases hc : isWS c = true <;> simp [hc] <;> trivial
    | cons d r =>
      rw [htr] at ihr
      obtain ⟨l0, hl0⟩ := trimRight_head_eq htr
      subst hl0
      exact ⟨h.1, ihr⟩

lemma trimRight_lastNWS : ∀ l : JStr, lastNWS (trimRight l)
  | [] => by trivial
  | c :: rest => by
    have ih := trimRight_lastNWS rest
    unfold trimRight
    cases htr : trimRight rest with
    | nil =>
      by_cases hc : isWS c = true
      · simp [hc]; trivial
      · have hc' : isWS c = false := by simpa using hc
        simp [hc']
        exact hc'
    | cons d r =>
      rw [htr] at ih
      exact ih

lemma trimRight_id : ∀ l : JStr, lastNWS l → trimRight l = l
  | [], _ => rfl
  | [c], h => by
    have hc : isWS c = false := h
    simp [trimRight, hc]
  | c :: d :: rest, h => by
    have ih := trimRight_id (d :: rest) h
    unfold trimRight
    rw [ih]

/-- The output of `normalizeWhitespace` is in normal form: all whitespace is
a single space, no two spaces are adjacent, and neither end is whitespace. -/
lemma normalizeWhitespace_normal (l : JStr) :
    allSpaceWS (normalizeWhitespace l) ∧ noAdjWS (normalizeWhitespace l) ∧
      headNWS (normalizeWhitespace l) ∧ lastNWS (normalizeWhitespace l) := by
  have h1 := collapseWS_allSpace l
  have h2 := collapseWS_noAdj l
  have hrw : normalizeWhitespace l = trimRight (trimLeft (collapseWS l)) := by
    unfold normalizeWhitespace trimJS
    rw [replaceNL_id (collapseWS l) h1]
  rw [hrw]
  refine ⟨trimRight_allSpace _ (trimLeft_allSpace _ h1),
          trimRight_noAdj _ (trimLeft_noAdj _ h2), ?_, trimRight_lastNWS _⟩
  cases htr : trimRight (trimLeft (collapseWS l)) with
  | nil => trivial
  | cons d r =>
    obtain ⟨l0, hl0⟩ := trimRight_head_eq htr
    have := trimLeft_headNWS (collapseWS l)
    rw [hl0] at this
    exact this

/-- `normalizeWhitespace` is the identity on lists already in normal form. -/
lemma normalizeWhitespace_fixed (l : JStr) (h1 : allSpaceWS l) (h2 : noAdjWS l)
    (h3 : headNWS l) (h4 : lastNWS l) : normalizeWhitespace l = l := by
  unfold normalizeWhitespace trimJS
  rw [collapseWS_id l h1 h2, replaceNL_id l h1, trimLeft_id l h3, trimRight_id l h4]

/-! ### Remaining helper lemmas -/

lemma findOriginalSpan_sub (t : JStr) (ni L : Nat) (sp : SpanResult)
    (h : findOriginalSpan t ni L = some sp) :
    sp.text = jsSubstring t sp.start sp.«end» := by
  unfold findOriginalSpan at h
  split at h
  · cases h
  · cases h
    rfl

lemma fuzzyFindQuote_sub (q t : JStr) (sp : SpanResult)
    (h : fuzzyFindQuote q t = some sp) :
    sp.text = jsSubstring t sp.start sp.«end» := by
  simp only [fuzzyFindQuote] at h
  split at h
  · cases h
  · split at h
    · cases h
    · split at h
      · cases h
      · split at h
        · cases h
        · cases h
          rfl

/-- The predicate counted by `generateValidationReport`. -/
def demotedPair (p : Extraction × Extraction) : Bool :=
  decide (p.1.status = VStatus.found ∧ p.2.status = VStatus.not_found)

lemma reportAux_eq : ∀ (o v : List Extraction),
    reportAux o v =
      (((o.zip v).filter demotedPair).length,
        ((o.zip v).filter demotedPair).map (fun p => p.1.field)) := by
  intro o
  induction o with
  | nil => intro v; rfl
  | cons x os ih =>
    intro v
    cases v with
    | nil => rfl
    | cons y vs =>
      simp only [reportAux, List.zip_cons_cons, List.filter_cons, ih vs]
      by_cases h : x.status = VStatus.found ∧ y.status = VStatus.not_found
      · simp [demotedPair, h]
      · simp [demotedPair, h]

/-! ### Concrete inputs used by counterexamples and witnesses -/

/-- A claim whose quote occurs in the text but whose claimed offsets are
non-null and wrong. -/
def exC1 : Extraction :=
  { field := "F", status := VStatus.found, quote := "ab".data, reasoning := "",
    page := none, start := some 0, «end» := some 1, confidence := 1 }

/-- A well-formed claim with null offsets whose quote occurs in the text. -/
def exW1 : Extraction :=
  { field := "F", status := VStatus.found, quote := "ab".data, reasoning := "",
    page := none, start := none, «end» := none, confidence := 1 }

/-- A claim with a page number whose quote occurs nowhere in the text
(all three matching tiers fail on the text `"ab"`). -/
def exC2 : Extraction :=
  { field := "F", status := VStatus.found, quote := "zzzz".data, reasoning := "",
    page := some 1, start := none, «end» := none, confidence := 1 }

/-- A claim with `page = null` whose quote grounds exactly. -/
def exC3 : Extraction :=
  { field := "F", status := VStatus.found, quote := "ab".data, reasoning := "",
    page := none, start := none, «end» := none, confidence := 1 }

/-! ### Claim C1 -/

/-- Claim C1 counterexample: on text `"ab"`, a claim with quote `"ab"` but
wrong non-null offsets `start = 0`, `end = 1` is returned by
`validateExtraction` with status `found` and those offsets unchanged, yet
`"ab".substring(0, 1) = "a" ≠ "ab"`, so the grounding-soundness invariant
fails as stated for `validateExtraction`. -/
theorem grounding_soundness_counterexample :
    (validateExtraction exC1 "ab".data).status = VStatus.found ∧
    (validateExtraction exC1 "ab".data).start = some 0 ∧
    (validateExtraction exC1 "ab".data).«end» = some 1 ∧
    (validateExtraction exC1 "ab".data).quote = "ab".data ∧
    jsSubstring "ab".data 0 1 ≠ "ab".data := by decide

/-- Claim C1 (amended): grounding soundness.  Every record emitted by
`mergeExtractions` with status `found` satisfies
`text.substring(start, end) = quote` exactly; the record returned by
`validateExtraction` satisfies it provided the input claim's `start` and
`end` are null and its quote is not whitespace-only (the exact-match branch
keeps non-null claimed offsets unchecked, and a whitespace-only quote with
status `found` passes through unvalidated). -/
theorem grounding_soundness_amended :
    (∀ (e : Extraction) (t : JStr), e.start = none → e.«end» = none →
        trimJS e.quote ≠ [] → (validateExtraction e t).status = VStatus.found →
        ∃ s en, (validateExtraction e t).start = some s ∧
          (validateExtraction e t).«end» = some en ∧
          jsSubstring t s en = (validateExtraction e t).quote)
    ∧ (∀ (A : List (List MExtraction)) (t : JStr) (ps : List Nat) (rec : MExtraction),
        rec ∈ mergeExtractions A t ps → rec.status = MStatus.found →
        ∃ s en, rec.start = some s ∧ rec.«end» = some en ∧
          jsSubstring t s en = rec.quote) := by
  constructor
  · intro e t hs he hq hf
    rcases validateExtraction_branches e t with
      ⟨hv, hd⟩ | ⟨i, hi, hv⟩ | ⟨ni, sp, hsp, hv⟩ | ⟨fz, hfz, hv⟩ | hv
    · rw [hv] at hf
      rcases hd with h1 | h1 | h1
      · rw [h1] at hf; exact VStatus.noConfusion hf
      · exact absurd (by rw [h1]; rfl) hq
      · exact absurd h1 hq
    · refine ⟨i, i + e.quote.length, ?_, ?_, ?_⟩
      · rw [hv]; simp [hs]
      · rw [hv]; simp [he]
      · rw [hv]
        show jsSubstring t i (i + e.quote.length) = e.quote
        exact jsSubstring_firstOccur t e.quote i hi
    · refine ⟨sp.start, sp.«end», ?_, ?_, ?_⟩ <;> rw [hv]
      exact (findOriginalSpan_sub t ni e.quote.length sp hsp).symm
    · refine ⟨fz.start, fz.«end», ?_, ?_, ?_⟩ <;> rw [hv]
      exact (fuzzyFindQuote_sub e.quote t fz hfz).symm
    · rw [hv] at hf
      simp at hf
  · intro A t ps rec hmem hf
    simp only [mergeExtractions] at hmem
    obtain ⟨f, hfmem, rfl⟩ := List.mem_map.mp hmem
    cases hsort : sortByLenDesc (foundCandidatesFor A.flatten f) with
    | nil =>
      have hmf : mergeField A.flatten f t ps = mergeNotFound f := by
        unfold mergeField; rw [hsort]
      rw [hmf] at hf
      simp [mergeNotFound] at hf
    | cons best tl =>
      have hhead : (sortByLenDesc (foundCandidatesFor A.flatten f)).head? = some best := by
        rw [hsort]; rfl
      have hmf := mergeField_of_head A.flatten f t ps best hhead
      cases hloc : locateQuote best.quote t ps with
      | none =>
        simp only [hloc] at hmf
        rw [hmf] at hf
        simp [mergeNotFound] at hf
      | some loc =>
        simp only [hloc] at hmf
        obtain ⟨hfo, hquote, hend, hpage⟩ := locateQuote_spec best.quote t ps loc hloc
        refine ⟨loc.start, loc.«end», ?_, ?_, ?_⟩ <;> rw [hmf]
        show jsSubstring t loc.start loc.«end» = loc.exactQuote
        rw [hquote, hend]
        exact jsSubstring_firstOccur t best.quote loc.start hfo

/-- Claim C1 witness: the amended grounding-soundness statement applied to a
concrete claim with null offsets on the text `"ab"`. -/
theorem grounding_soundness_witness :
    ∃ s en, (validateExtraction exW1 "ab".data).start = some s ∧
      (validateExtraction exW1 "ab".data).«end» = some en ∧
      jsSubstring "ab".data s en = (validateExtraction exW1 "ab".data).quote :=
  grounding_soundness_amended.1 exW1 "ab".data (by decide) (by decide) (by decide) (by decide)

/-! ### Claim C2 -/

/-- Claim C2 counterexample: on text `"ab"`, the claim `exC2` (quote
`"zzzz"`, page 1) fails all three matching tiers and is demoted, but the
returned record keeps `page = 1` instead of the `page = null` stated by the
claim. -/
theorem demotion_page_counterexample :
    (validateExtraction exC2 "ab".data).status = VStatus.not_found ∧
    (validateExtraction exC2 "ab".data).quote = [] ∧
    (validateExtraction exC2 "ab".data).page = some 1 := by decide

lemma validateTail_of_fuzzy_none (e : Extraction) (t : JStr)
    (h3 : e.quote.length < 200 → fuzzyFindQuote e.quote t = none) :
    validateTail e t =
      { e with status := VStatus.not_found, quote := [],
               reasoning := if e.reasoning = "" then defaultReasoning else e.reasoning,
               start := none, «end» := none, confidence := 0 } := by
  unfold validateTail
  have hnone : (if e.quote.length < 200 then fuzzyFindQuote e.quote t else none) = none := by
    split
    · exact h3 (by assumption)
    · rfl
  simp only [hnone]

/-- Claim C2 (amended): when a `found` or `inferred` claim with a non-empty,
non-whitespace quote fails the exact, normalized and fuzzy tiers,
`validateExtraction` returns the input with `status = not_found`,
`quote = ""`, `start = end = null`, `confidence = 0` and `reasoning`
defaulted when empty — but `page` is passed through unchanged from the
input rather than being set to null. -/
theorem demotion_record_amended (e : Extraction) (t : JStr)
    (hst : e.status = VStatus.found ∨ e.status = VStatus.inferred)
    (hq : e.quote ≠ []) (hqt : trimJS e.quote ≠ [])
    (h1 : firstOccur t e.quote = none)
    (h2 : ∀ ni, firstOccur (normalizeWhitespace t) (normalizeWhitespace e.quote) = some ni →
        findOriginalSpan t ni e.quote.length = none)
    (h3 : e.quote.length < 200 → fuzzyFindQuote e.quote t = none) :
    validateExtraction e t =
      { e with status := VStatus.not_found, quote := [],
               reasoning := if e.reasoning = "" then defaultReasoning else e.reasoning,
               start := none, «end» := none, confidence := 0 } ∧
    (validateExtraction e t).page = e.page := by
  have hnot : ¬ (e.status = VStatus.not_found ∨ e.quote = [] ∨ trimJS e.quote = []) := by
    rintro (h | h | h)
    · rcases hst with h' | h' <;> rw [h'] at h <;> exact VStatus.noConfusion h
    · exact hq h
    · exact hqt h
  refine ⟨?_, (validateExtraction_frame e t).2⟩
  unfold validateExtraction
  rw [if_neg hnot]
  simp only [h1]
  cases hn : firstOccur (normalizeWhitespace t) (normalizeWhitespace e.quote) with
  | none => exact validateTail_of_fuzzy_none e t h3
  | some ni =>
    simp only [h2 ni hn]
    exact validateTail_of_fuzzy_none e t h3

/-- Claim C2 witness: the amended demotion statement applied to the concrete
claim `exC2` on the text `"ab"`. -/
theorem demotion_record_witness :
    validateExtraction exC2 "ab".data =
      { exC2 with status := VStatus.not_found, quote := [],
                  reasoning := if exC2.reasoning = "" then defaultReasoning else exC2.reasoning,
                  start := none, «end» := none, confidence := 0 } ∧
    (validateExtraction exC2 "ab".data).page = exC2.page :=
  demotion_record_amended exC2 "ab".data (Or.inl (by decide)) (by decide) (by decide)
    (by decide)
    (by
      intro ni h
      rw [(by decide : firstOccur (normalizeWhitespace ("ab".data))
        (normalizeWhitespace (exC2.quote)) = none)] at h
      exact Option.noConfusion h)
    (by intro h; decide)

/-! ### Claim C3 -/

/-- Claim C3 counterexample: on text `"ab"` with page offsets `[0, 2]`, the
claim `exC3` (page unset) is successfully grounded by the exact tier, yet
the record returned by `validateExtraction` still has `page = null` — the
validator performs no bracket scan at all, although `findPageNumber` (which
the claim describes) would return page 1 for offset 0. -/
theorem page_computation_counterexample :
    (validateExtraction exC3 "ab".data).status = VStatus.found ∧
    (validateExtraction exC3 "ab".data).start = some 0 ∧
    (validateExtraction exC3 "ab".data).page = none ∧
    findPageNumber 0 [0, 2] = 1 := by decide

/-- Claim C3 (amended): `validateExtraction` never computes a page number —
its output `page` always equals the input `page`.  The half-open bracket
scan the claim describes is performed by `findPageNumber` in the merge
module: `locateQuote` stamps every successfully grounded quote with
`findPageNumber start pages`; for sorted page offsets `findPageNumber`
returns `i + 1` exactly when `pages[i] ≤ offset < pages[i+1]`, and defaults
to the last page (`max 1 (pages.length - 1)`) when no bracket contains the
offset. -/
theorem page_computation_amended :
    (∀ (e : Extraction) (t : JStr), (validateExtraction e t).page = e.page)
    ∧ (∀ (q t : JStr) (ps : List Nat) (loc : Located),
        locateQuote q t ps = some loc → loc.page = findPageNumber loc.start ps)
    ∧ (∀ (pages : List Nat) (off i a b : Nat) (r : List Nat),
        List.Sorted (· ≤ ·) pages → pages.drop i = a :: b :: r → a ≤ off → off < b →
        findPageNumber off pages = i + 1)
    ∧ (∀ (pages : List Nat) (off : Nat),
        (∀ i a b r, pages.drop i = a :: b :: r → ¬(a ≤ off ∧ off < b)) →
        findPageNumber off pages = max 1 (pages.length - 1)) :=
  ⟨fun e t => (validateExtraction_frame e t).2,
   fun q t ps loc h => (locateQuote_spec q t ps loc h).2.2.2,
   fun pages off i a b r hs hd ha hb => findPageNumber_bracket pages off i a b r hs hd ha hb,
   fun pages off h => findPageNumber_default pages off h⟩

/-- Claim C3 witness: the amended statement applied to concrete inputs — the
validator leaves `exC3`'s unset page unchanged, and the bracket scan places
offset 3 on page 2 of the offsets `[0, 2, 7]`. -/
theorem page_computation_witness :
    (validateExtraction exC3 "ab".data).page = none ∧
    findPageNumber 3 [0, 2, 7] = 2 := by
  constructor
  · exact page_computation_amended.1 exC3 "ab".data
  · exact page_computation_amended.2.2.1 [0, 2, 7] 3 1 2 7 [] (by decide) (by decide)
      (by decide) (by decide)

/-! ### Claim C4 -/

lemma locateQuote_of_firstOccur_none (q t : JStr) (ps : List Nat)
    (h : firstOccur t q = none) : locateQuote q t ps = none := by
  unfold locateQuote
  simp only [h]

lemma locateQuote_of_firstOccur_some (q t : JStr) (ps : List Nat) (i : Nat)
    (h : firstOccur t q = some i) :
    locateQuote q t ps = some ⟨q, findPageNumber i ps, i, i + q.length⟩ := by
  unfold locateQuote
  simp only [h]

/-- Claim C4: at merge time, only candidates with status `found` and a
non-whitespace quote are kept for a field; the sorted head attains the
maximal quote length among them; the selected candidate is grounded by
exact substring match only, demoting the field to `not_found` (empty quote,
null page/start/end, confidence 0) whenever its quote does not occur
verbatim — no normalized or fuzzy fallback exists on this path. -/
theorem merge_exact_only :
    (∀ (A : List (List MExtraction)) (t : JStr) (ps : List Nat),
        mergeExtractions A t ps =
          (dedupFirst (A.flatten.map (fun c => c.field))).map
            (fun f => mergeField A.flatten f t ps))
    ∧ (∀ (claims : List MExtraction) (f : String) (c : MExtraction),
        c ∈ foundCandidatesFor claims f →
        c.status = MStatus.found ∧ 0 < (trimJS c.quote).length)
    ∧ (∀ (claims : List MExtraction) (f : String) (t : JStr) (ps : List Nat),
        foundCandidatesFor claims f = [] → mergeField claims f t ps = mergeNotFound f)
    ∧ (∀ (claims : List MExtraction) (f : String) (t : JStr) (ps : List Nat)
        (best : MExtraction),
        (sortByLenDesc (foundCandidatesFor claims f)).head? = some best →
        best ∈ foundCandidatesFor claims f ∧
        (∀ c ∈ foundCandidatesFor claims f, c.quote.length ≤ best.quote.length) ∧
        (firstOccur t best.quote = none → mergeField claims f t ps = mergeNotFound f) ∧
        (∀ i, firstOccur t best.quote = some i →
          mergeField claims f t ps =
            { field := f, status := MStatus.found, quote := best.quote,
              page := some (findPageNumber i ps), start := some i,
              «end» := some (i + best.quote.length), confidence := best.confidence })) := by
  refine ⟨fun A t ps => rfl, ?_, ?_, ?_⟩
  · intro claims f c hc
    exact ⟨(mem_foundCandidatesFor claims f c hc).2.2.1,
           (mem_foundCandidatesFor claims f c hc).2.2.2⟩
  · intro claims f t ps h
    exact mergeField_empty claims f t ps h
  · intro claims f t ps best hhead
    obtain ⟨hmem, hmax⟩ := sortByLenDesc_head_max (foundCandidatesFor claims f) best hhead
    refine ⟨hmem, hmax, ?_, ?_⟩
    · intro hfo
      have hmf := mergeField_of_head claims f t ps best hhead
      rw [locateQuote_of_firstOccur_none best.quote t ps hfo] at hmf
      exact hmf
    · intro i hfo
      have hmf := mergeField_of_head claims f t ps best hhead
      rw [locateQuote_of_firstOccur_some best.quote t ps i hfo] at hmf
      exact hmf

/-- A concrete merge candidate whose quote occurs at offset 0 of the text
`"abcd wxyz"`. -/
def mA : MExtraction :=
  { field := "F", status := MStatus.found, quote := "abcd".data,
    page := none, start := none, «end» := none, confidence := 1 }

/-- A concrete merge candidate with a different quote of the same length,
occurring at offset 5 of the text `"abcd wxyz"`. -/
def mB : MExtraction :=
  { field := "F", status := MStatus.found, quote := "wxyz".data,
    page := none, start := none, «end» := none, confidence := 1 }

/-- Claim C4 witness: the merge characterization applied to the concrete
single-candidate input `[mA]` on the text `"abcd wxyz"`. -/
theorem merge_exact_only_witness :
    mergeField [mA] "F" "abcd wxyz".data [0, 9] =
      { field := "F", status := MStatus.found, quote := "abcd".data,
        page := some (findPageNumber 0 [0, 9]), start := some 0,
        «end» := some (0 + "abcd".data.length), confidence := 1 } :=
  (merge_exact_only.2.2.2 [mA] "F" "abcd wxyz".data [0, 9] mA (by decide)).2.2.2 0 (by decide)

/-! ### Claim C5 -/

/-- Claim C5 counterexample: the two orderings `[mA, mB]` and `[mB, mA]` of
the same multiset of claims for field `"F"` — two `found` candidates with
distinct quotes of equal length, both verbatim in the text — make
`mergeExtractions` select different candidates (the stable sort keeps input
order on ties), so the outputs differ. -/
theorem merge_determinism_counterexample :
    mergeExtractions [[mA, mB]] "abcd wxyz".data [0, 9] ≠
      mergeExtractions [[mB, mA]] "abcd wxyz".data [0, 9] := by decide

/-- Claim C5 (amended): merge determinism holds when the longest surviving
candidate is unique.  If exactly one candidate attains the maximal quote
length among a field's surviving (`found`, non-whitespace-quote) claims,
then any two input orderings of the same multiset select that candidate as
the head of the sort and produce the same merged record for the field. -/
theorem merge_determinism_amended (A B : List (List MExtraction)) (f : String)
    (t : JStr) (ps : List Nat) (hperm : A.flatten.Perm B.flatten) (b : MExtraction)
    (hb : b ∈ foundCandidatesFor A.flatten f)
    (hu : ∀ c ∈ foundCandidatesFor A.flatten f, c ≠ b → c.quote.length < b.quote.length) :
    (sortByLenDesc (foundCandidatesFor A.flatten f)).head? = some b ∧
    (sortByLenDesc (foundCandidatesFor B.flatten f)).head? = some b ∧
    mergeField A.flatten f t ps = mergeField B.flatten f t ps ∧
    mergeExtractions A t ps =
      (dedupFirst (A.flatten.map (fun c => c.field))).map
        (fun g => mergeField A.flatten g t ps) := by
  have hpf : (foundCandidatesFor A.flatten f).Perm (foundCandidatesFor B.flatten f) := by
    unfold foundCandidatesFor
    exact (hperm.filter _).filter _
  have h1 : (sortByLenDesc (foundCandidatesFor A.flatten f)).head? = some b :=
    sortByLenDesc_head_unique _ b hb hu
  have h2 : (sortByLenDesc (foundCandidatesFor B.flatten f)).head? = some b :=
    sortByLenDesc_head_unique _ b (hpf.subset hb)
      (fun c hc => hu c (hpf.symm.subset hc))
  refine ⟨h1, h2, ?_, rfl⟩
  rw [mergeField_of_head A.flatten f t ps b h1, mergeField_of_head B.flatten f t ps b h2]

/-- Claim C5 witness: the amended determinism statement applied to the
concrete single-candidate input `[[mA]]` (where the longest candidate is
trivially unique). -/
theorem merge_determinism_witness :
    (sortByLenDesc (foundCandidatesFor [[mA]].flatten "F")).head? = some mA ∧
    mergeField [[mA]].flatten "F" "abcd wxyz".data [0, 9] =
      mergeField [[mA]].flatten "F" "abcd wxyz".data [0, 9] := by
  have h := merge_determinism_amended [[mA]] [[mA]] "F" "abcd wxyz".data [0, 9]
    (List.Perm.refl _) mA (by decide) (by decide)
  exact ⟨h.1, h.2.2.1⟩

/-! ### Claim C6 -/

/-- Claim C6: confidence monotonicity.  For every claim whose confidence
lies in `[0, 1]`, the confidence of the record returned by
`validateExtraction` is at most the input confidence: the exact tier and the
pass-through keep it, the normalized and fuzzy tiers subtract 0.1 / 0.2
(floored at 0), and demotion forces 0. -/
theorem confidence_monotone (e : Extraction) (t : JStr)
    (h0 : 0 ≤ e.confidence) (h1 : e.confidence ≤ 1) :
    (validateExtraction e t).confidence ≤ e.confidence := by
  rcases validateExtraction_branches e t with
    ⟨hv, _⟩ | ⟨i, _, hv⟩ | ⟨ni, sp, _, hv⟩ | ⟨fz, _, hv⟩ | hv
  · rw [hv]
  · rw [hv]
  · rw [hv]
    show max 0 (e.confidence - 1/10) ≤ e.confidence
    exact max_le h0 (by linarith)
  · rw [hv]
    show max 0 (e.confidence - 1/5) ≤ e.confidence
    exact max_le h0 (by linarith)
  · rw [hv]
    show (0 : ℚ) ≤ e.confidence
    exact h0

/-- Claim C6 witness: confidence monotonicity at the concrete demoted claim
`exC2` (confidence 1) on the text `"ab"`. -/
theorem confidence_monotone_witness :
    (validateExtraction exC2 "ab".data).confidence ≤ exC2.confidence :=
  confidence_monotone exC2 "ab".data (by decide) (by decide)

/-! ### Claim C7 -/

/-- Claim C7: for equal-length, equally-ordered lists,
`generateValidationReport` counts exactly the indices whose status moved
from `found` to `not_found` (an input already `not_found` or `inferred`
never matches the filter), reports `validCount = total - invalidCount`, and
lists the matching original field names in index order. -/
theorem validation_report_counts (orig valid : List Extraction)
    (hlen : orig.length = valid.length) :
    (generateValidationReport orig valid).totalExtractions = orig.length ∧
    (generateValidationReport orig valid).invalidCount =
      ((orig.zip valid).filter demotedPair).length ∧
    (generateValidationReport orig valid).validCount =
      orig.length - ((orig.zip valid).filter demotedPair).length ∧
    (generateValidationReport orig valid).invalidFields =
      ((orig.zip valid).filter demotedPair).map (fun p => p.1.field) := by
  simp [generateValidationReport, reportAux_eq]

/-- A claim that validation keeps intact. -/
def okPay : Extraction :=
  { field := "Payment", status := VStatus.found, quote := "Valid quote".data,
    reasoning := "", page := some 1, start := some 0, «end» := some 10, confidence := 9/10 }

/-- A claim that validation demotes. -/
def badTax : Extraction :=
  { field := "Tax", status := VStatus.found, quote := "Invalid quote".data,
    reasoning := "", page := some 1, start := some 0, «end» := some 10, confidence := 8/10 }

/-- The demoted form of `badTax`. -/
def badTaxDemoted : Extraction :=
  { field := "Tax", status := VStatus.not_found, quote := [],
    reasoning := "", page := none, start := none, «end» := none, confidence := 0 }

/-- Claim C7 witness: the report characterization applied to the concrete
scenario `[found, found]` vs `[found, not_found]`, yielding total 2, one
invalid entry and the field list `["Tax"]`. -/
theorem validation_report_counts_witness :
    (generateValidationReport [okPay, badTax] [okPay, badTaxDemoted]).totalExtractions = 2 ∧
    (generateValidationReport [okPay, badTax] [okPay, badTaxDemoted]).validCount = 1 ∧
    (generateValidationReport [okPay, badTax] [okPay, badTaxDemoted]).invalidCount = 1 ∧
    (generateValidationReport [okPay, badTax] [okPay, badTaxDemoted]).invalidFields = ["Tax"] := by
  have h := validation_report_counts [okPay, badTax] [okPay, badTaxDemoted] (by decide)
  refine ⟨h.1, ?_, ?_, ?_⟩
  · rw [h.2.2.1]; decide
  · rw [h.2.1]; decide
  · rw [h.2.2.2]; decide

/-! ### Claim C8 -/

/-- The source text of specification scenario 1. -/
def c8text : JStr := "Payment is due in 30 days.".data

/-- The claim of specification scenario 1. -/
def c8claim : Extraction :=
  { field := "Payment", status := VStatus.found, quote := "Payment is due in 30 days.".data,
    reasoning := "", page := none, start := none, «end» := none, confidence := 9/10 }

/-- Claim C8 counterexample: the scenario-1 quote is 26 characters long, so
the exact tier records `end = 0 + 26 = 26`, not the `end = 27` stated by the
claim. -/
theorem scenario_one_counterexample :
    (validateExtraction c8claim c8text).«end» ≠ some 27 ∧
    "Payment is due in 30 days.".data.length = 26 := by decide

/-- Claim C8 (amended): on the scenario-1 input, `validateExtraction`
returns a verified extraction with `start = 0`, `end = 26` (the quote's
length), confidence 0.9 and status `found`. -/
theorem scenario_one_amended :
    (validateExtraction c8claim c8text).start = some 0 ∧
    (validateExtraction c8claim c8text).«end» = some 26 ∧
    (validateExtraction c8claim c8text).confidence = 9/10 ∧
    (validateExtraction c8claim c8text).status = VStatus.found :=
  ⟨by decide, by decide, rfl, by decide⟩

/-! ### Claim C9 -/

/-- Claim C9: idempotence of normalization.  `normalizeWhitespace` (collapse
every maximal whitespace run to one space, then strip both ends) is
idempotent on every string. -/
theorem normalizeWhitespace_idempotent (s : JStr) :
    normalizeWhitespace (normalizeWhitespace s) = normalizeWhitespace s := by
  obtain ⟨h1, h2, h3, h4⟩ := normalizeWhitespace_normal s
  exact normalizeWhitespace_fixed _ h1 h2 h3 h4

/-! ### Claim C10 -/

/-- Claim C10: `validateExtractions` returns a list of the same length as
its input, and no branch of `validateExtraction` ever changes the `field`
name, so the output field names equal the input field names position by
position. -/
theorem validate_preserves_fields :
    (∀ (e : Extraction) (t : JStr), (validateExtraction e t).field = e.field)
    ∧ (∀ (l : List Extraction) (t : JStr),
        (validateExtractions l t).length = l.length ∧
        (validateExtractions l t).map (fun r => r.field) = l.map (fun r => r.field)) := by
  refine ⟨fun e t => (validateExtraction_frame e t).1, fun l t => ⟨?_, ?_⟩⟩
  · simp [validateExtractions]
  · unfold validateExtractions
    rw [List.map_map]
    exact List.map_congr_left (fun e _ => (validateExtraction_frame e t).1)

end CKT
